import Mathlib

/-!
Shallow embedding of the knight-moves puzzle solver (src/main.rs).

The program searches for a knight path on a fixed 10 by 10 board subject to
per-region occupancy limits, waypoint hints, and a final balance check.
Rust vectors and arrays are embedded as Lean lists; `Vec` indexing is embedded
as `List.getD` with the natural default (all indices used by the program are
in bounds for the states it builds), `Vec::push` as append, and element
assignment as `List.set`.  The `Rc` sharing of the region tables carries no
semantic content in a pure embedding and is dropped.
-/

set_option maxHeartbeats 1000000

def BOARD_WIDTH : Nat := 10
def BOARD_HEIGHT : Nat := 10

/-- Embeds `struct Position { x: usize, y: usize }`. -/
structure Position where
  x : Nat
  y : Nat
deriving DecidableEq

/-- Embeds `fn pos(x, y) -> Position`, the shorthand constructor. -/
def pos (x y : Nat) : Position :=
  { x := x, y := y }

/-- Embeds `Position::raw_index`: the linear index `y * BOARD_WIDTH + x`. -/
def Position.raw_index (self : Position) : Nat :=
  self.y * BOARD_WIDTH + self.x

/-- Embeds `struct GameState`. -/
structure GameState where
  board : List Bool
  current_position : Position
  current_region : Nat
  history : List Position
  ref_regions : List Nat
  region_list : List (List Position)
deriving DecidableEq

/-- Embeds the counting loop `for p in potential_region { if state.board[...] { r += 1 } }`
that appears in `add_move_if_able` and (for the first region) in `check`. -/
def countMarkedIn (board : List Bool) (region : List Position) : Nat :=
  region.foldl (fun r p => if board.getD p.raw_index false then r + 1 else r) 0

/-- Embeds `Position::add_move_if_able`: push `p` onto the move list when its
region differs from the current region, it is unmarked, and its region holds
fewer than five marks.  The unused `self` receiver of the Rust method is dropped. -/
def Position.add_move_if_able (possible_moves : List Position) (p : Position) (state : GameState) : List Position :=
  let i := p.raw_index
  let potential_region_idx := state.ref_regions.getD i 0
  let potential_region := state.region_list.getD potential_region_idx []
  let r := countMarkedIn state.board potential_region
  if potential_region_idx ≠ state.current_region ∧ state.board.getD i false = false ∧ r < 5 then
    possible_moves ++ [p]
  else
    possible_moves

/-- Embeds `Position::all_moves_with_restrictions`: try the eight knight
offsets in the fixed source order, guarding each against the board edge. -/
def Position.all_moves_with_restrictions (self : Position) (state : GameState) : List Position :=
  let x := self.x
  let y := self.y
  let moves : List Position := []
  let moves := if x < BOARD_WIDTH - 1 ∧ y < BOARD_HEIGHT - 2 then
    Position.add_move_if_able moves (pos (x + 1) (y + 2)) state else moves
  let moves := if x < BOARD_WIDTH - 1 ∧ 1 < y then
    Position.add_move_if_able moves (pos (x + 1) (y - 2)) state else moves
  let moves := if 0 < x ∧ y < BOARD_HEIGHT - 2 then
    Position.add_move_if_able moves (pos (x - 1) (y + 2)) state else moves
  let moves := if 0 < x ∧ 1 < y then
    Position.add_move_if_able moves (pos (x - 1) (y - 2)) state else moves
  let moves := if x < BOARD_WIDTH - 2 ∧ y < BOARD_HEIGHT - 1 then
    Position.add_move_if_able moves (pos (x + 2) (y + 1)) state else moves
  let moves := if x < BOARD_WIDTH - 2 ∧ 0 < y then
    Position.add_move_if_able moves (pos (x + 2) (y - 1)) state else moves
  let moves := if 1 < x ∧ y < BOARD_HEIGHT - 1 then
    Position.add_move_if_able moves (pos (x - 2) (y + 1)) state else moves
  let moves := if 1 < x ∧ 0 < y then
    Position.add_move_if_able moves (pos (x - 2) (y - 1)) state else moves
  moves

/-- Embeds `GameState::add_move`, the in-place update, as a functional update:
mark the cell, append it to the history, and make it the new head. -/
def GameState.add_move (self : GameState) (p : Position) : GameState :=
  let i := p.raw_index
  { self with
      board := self.board.set i true
      history := self.history ++ [p]
      current_position := p
      current_region := self.ref_regions.getD i 0 }

/-- Embeds `GameState::new`: a blank board, then `add_move(pos(0, 0))`. -/
def GameState.new (ref_regions : List Nat) (region_list : List (List Position)) : GameState :=
  let gs : GameState :=
    { board := List.replicate (BOARD_WIDTH * BOARD_HEIGHT) false
      current_position := pos 0 0
      current_region := 0
      history := []
      ref_regions := ref_regions
      region_list := region_list }
  gs.add_move (pos 0 0)

/-- Embeds `GameState::into_move`: clone this state and add one move to the
clone.  In the pure embedding the clone step is implicit: the argument state
is untouched and the derived child is returned. -/
def GameState.into_move (self : GameState) (p : Position) : GameState :=
  self.add_move p

/-- Embeds `GameState::all_moves`. -/
def GameState.all_moves (self : GameState) : List Position :=
  Position.all_moves_with_restrictions self.current_position self

/-- Embeds `GameState::count_in_row`. -/
def GameState.count_in_row (self : GameState) (i : Nat) : Nat :=
  (List.range BOARD_WIDTH).foldl
    (fun sum x => if self.board.getD (pos x i).raw_index false then sum + 1 else sum) 0

/-- Embeds `GameState::count_in_col`. -/
def GameState.count_in_col (self : GameState) (i : Nat) : Nat :=
  (List.range BOARD_HEIGHT).foldl
    (fun sum y => if self.board.getD (pos i y).raw_index false then sum + 1 else sum) 0

/-- Embeds `GameState::check`: rows 1..9 against row 0, columns 1..9 against
column 0, and every region count against the count of region 0. -/
def GameState.check (self : GameState) : Bool :=
  let cl_rows_equal :=
    let r_count := self.count_in_row 0
    (List.range' 1 (BOARD_HEIGHT - 1)).all (fun i => self.count_in_row i == r_count)
  let cl_cols_equal :=
    let c_count := self.count_in_col 0
    (List.range' 1 (BOARD_WIDTH - 1)).all (fun i => self.count_in_col i == c_count)
  let cl_regions_equal :=
    let fr_region_count := countMarkedIn self.board (self.region_list.getD 0 [])
    self.region_list.all (fun region => fr_region_count == countMarkedIn self.board region)
  cl_rows_equal && cl_cols_equal && cl_regions_equal

/-- Embeds `init_regions`: the twelve static regions of the puzzle instance. -/
def init_regions : List (List Position) :=
  [ [pos 0 0, pos 1 0, pos 2 0, pos 3 0, pos 3 1, pos 0 1, pos 0 2, pos 0 3],
    [pos 0 4, pos 0 5, pos 0 6, pos 0 7, pos 0 8, pos 0 9, pos 1 5],
    [pos 1 1, pos 1 2, pos 2 1, pos 1 3, pos 1 4, pos 2 3, pos 2 4, pos 3 4, pos 3 5, pos 4 4, pos 5 4],
    [pos 2 5, pos 2 6, pos 1 6, pos 1 7, pos 1 8, pos 2 8],
    [pos 1 9, pos 2 9, pos 3 9, pos 4 9, pos 3 8, pos 3 7, pos 3 6, pos 2 7],
    [pos 2 2, pos 3 2, pos 4 2, pos 5 2, pos 6 2, pos 3 3, pos 4 3, pos 5 3, pos 6 3, pos 7 3, pos 6 4],
    [pos 4 0, pos 5 0, pos 6 0, pos 7 0, pos 8 0, pos 9 0, pos 4 1, pos 5 1, pos 6 1, pos 7 1, pos 8 1],
    [pos 9 1, pos 9 2, pos 9 3, pos 8 2, pos 7 2],
    [pos 8 3, pos 8 4, pos 8 5, pos 9 4, pos 9 5],
    [pos 5 5, pos 6 5, pos 7 5, pos 7 4, pos 7 6, pos 7 7, pos 8 6, pos 9 6],
    [pos 9 9, pos 8 9, pos 7 9, pos 9 8, pos 8 8, pos 7 8, pos 6 8, pos 9 7, pos 8 7, pos 6 7, pos 4 7, pos 6 6, pos 5 6, pos 4 6, pos 4 5],
    [pos 6 9, pos 5 9, pos 5 8, pos 5 7, pos 4 8] ]

/-- Embeds `get_region_map`: start from an all-zero array of 100 entries and,
for each region in order, write its index at each member cell. -/
def get_region_map (regions : List (List Position)) : List Nat :=
  regions.enum.foldl
    (fun blank iv => iv.2.foldl (fun b p => b.set p.raw_index iv.1) blank)
    (List.replicate (BOARD_WIDTH * BOARD_HEIGHT) 0)

/-- Embeds the loop body shared by `paths_to` and the unguided loop in `main`:
replace every frontier state by all its one-move children. -/
def expand_frontier (states : List GameState) : List GameState :=
  states.flatMap (fun f => f.all_moves.map (fun m => f.into_move m))

/-- Embeds `paths_to`: expand the frontier `moves_left` times, then keep only
the states whose head is the destination. -/
def paths_to (states : List GameState) (destination : Position) (moves_left : Nat) : List GameState :=
  match moves_left with
  | 0 => states.filter (fun p => decide (p.current_position = destination))
  | m + 1 => paths_to (expand_frontier states) destination m

/-- Embeds `init_waypoints`: the static waypoint hints of the puzzle. -/
def init_waypoints : List (Nat × Position) :=
  [ (1, pos 0 0),
    (4, pos 1 2),
    (7, pos 5 3),
    (10, pos 9 4),
    (13, pos 9 1),
    (16, pos 5 4),
    (19, pos 3 7),
    (22, pos 2 9),
    (25, pos 2 8),
    (28, pos 4 5),
    (31, pos 9 5),
    (34, pos 8 5),
    (37, pos 8 8),
    (40, pos 9 2),
    (43, pos 6 0),
    (46, pos 2 3),
    (49, pos 0 6) ]

/-- Embeds the seeding in `main`: the single starting state built over the
static region table and its derived reverse map. -/
def initial_state : GameState :=
  GameState.new (get_region_map init_regions) init_regions

/-- A cell is at a knight offset from `h` when it differs by one of the eight
combinations of one and two steps.  Stated with additions on both sides so it
reads the same for truncated natural subtraction. -/
def isKnightOffset (h c : Position) : Prop :=
  (c.x = h.x + 1 ∧ c.y = h.y + 2) ∨ (c.x = h.x + 1 ∧ c.y + 2 = h.y) ∨
  (c.x + 1 = h.x ∧ c.y = h.y + 2) ∨ (c.x + 1 = h.x ∧ c.y + 2 = h.y) ∨
  (c.x = h.x + 2 ∧ c.y = h.y + 1) ∨ (c.x = h.x + 2 ∧ c.y + 1 = h.y) ∨
  (c.x + 2 = h.x ∧ c.y = h.y + 1) ∨ (c.x + 2 = h.x ∧ c.y + 1 = h.y)

instance (h c : Position) : Decidable (isKnightOffset h c) := by
  unfold isKnightOffset
  infer_instance

/-- The legality condition tested by `add_move_if_able` for a candidate cell. -/
def legalTarget (p : Position) (state : GameState) : Prop :=
  state.ref_regions.getD p.raw_index 0 ≠ state.current_region ∧
  state.board.getD p.raw_index false = false ∧
  countMarkedIn state.board (state.region_list.getD (state.ref_regions.getD p.raw_index 0) []) < 5

instance (p : Position) (state : GameState) : Decidable (legalTarget p state) := by
  unfold legalTarget
  infer_instance

/-- States reachable from `GameState.new` by repeatedly deriving children with
`into_move` on cells produced by the move generator. -/
inductive Reachable (rr : List Nat) (rl : List (List Position)) : GameState → Prop
  | init : Reachable rr rl (GameState.new rr rl)
  | step (s : GameState) (c : Position) :
      Reachable rr rl s → c ∈ s.all_moves → Reachable rr rl (s.into_move c)

/-! ## Helper lemmas about the move generator -/

lemma mem_add_move_if_able {acc : List Position} {p : Position} {state : GameState} {c : Position}
    (h : c ∈ Position.add_move_if_able acc p state) :
    c ∈ acc ∨ (c = p ∧ legalTarget p state) := by
  simp only [Position.add_move_if_able] at h
  split at h
  case isTrue hcond =>
    rcases List.mem_append.mp h with h | h
    · exact Or.inl h
    · exact Or.inr ⟨List.mem_singleton.mp h, hcond⟩
  case isFalse =>
    exact Or.inl h

lemma mem_if_step {g : Prop} [Decidable g] {acc : List Position} {p c : Position}
    {state : GameState}
    (h : c ∈ if g then Position.add_move_if_able acc p state else acc) :
    c ∈ acc ∨ (g ∧ c = p ∧ legalTarget p state) := by
  split at h
  case isTrue hg =>
    rcases mem_add_move_if_able h with h | h
    · exact Or.inl h
    · exact Or.inr ⟨hg, h⟩
  case isFalse =>
    exact Or.inl h

lemma mem_all_moves_spec {self c : Position} {state : GameState}
    (hx : self.x < BOARD_WIDTH) (hy : self.y < BOARD_HEIGHT)
    (h : c ∈ self.all_moves_with_restrictions state) :
    c.x < BOARD_WIDTH ∧ c.y < BOARD_HEIGHT ∧ isKnightOffset self c ∧ legalTarget c state := by
  simp only [BOARD_WIDTH, BOARD_HEIGHT] at hx hy
  simp only [Position.all_moves_with_restrictions] at h
  rcases mem_if_step h with h | ⟨hg, rfl, hl⟩
  rotate_left
  · refine ⟨?_, ?_, ?_, hl⟩ <;>
    · simp only [isKnightOffset, pos, BOARD_WIDTH, BOARD_HEIGHT, and_true, true_and,
        eq_self_iff_true, or_true, true_or] at hg ⊢
      try omega
  rcases mem_if_step h with h | ⟨hg, rfl, hl⟩
  rotate_left
  · refine ⟨?_, ?_, ?_, hl⟩ <;>
    · simp only [isKnightOffset, pos, BOARD_WIDTH, BOARD_HEIGHT, and_true, true_and,
        eq_self_iff_true, or_true, true_or] at hg ⊢
      try omega
  rcases mem_if_step h with h | ⟨hg, rfl, hl⟩
  rotate_left
  · refine ⟨?_, ?_, ?_, hl⟩ <;>
    · simp only [isKnightOffset, pos, BOARD_WIDTH, BOARD_HEIGHT, and_true, true_and,
        eq_self_iff_true, or_true, true_or] at hg ⊢
      try omega
  rcases mem_if_step h with h | ⟨hg, rfl, hl⟩
  rotate_left
  · refine ⟨?_, ?_, ?_, hl⟩ <;>
    · simp only [isKnightOffset, pos, BOARD_WIDTH, BOARD_HEIGHT, and_true, true_and,
        eq_self_iff_true, or_true, true_or] at hg ⊢
      try omega
  rcases mem_if_step h with h | ⟨hg, rfl, hl⟩
  rotate_left
  · refine ⟨?_, ?_, ?_, hl⟩ <;>
    · simp only [isKnightOffset, pos, BOARD_WIDTH, BOARD_HEIGHT, and_true, true_and,
        eq_self_iff_true, or_true, true_or] at hg ⊢
      try omega
  rcases mem_if_step h with h | ⟨hg, rfl, hl⟩
  rotate_left
  · refine ⟨?_, ?_, ?_, hl⟩ <;>
    · simp only [isKnightOffset, pos, BOARD_WIDTH, BOARD_HEIGHT, and_true, true_and,
        eq_self_iff_true, or_true, true_or] at hg ⊢
      try omega
  rcases mem_if_step h with h | ⟨hg, rfl, hl⟩
  rotate_left
  · refine ⟨?_, ?_, ?_, hl⟩ <;>
    · simp only [isKnightOffset, pos, BOARD_WIDTH, BOARD_HEIGHT, and_true, true_and,
        eq_self_iff_true, or_true, true_or] at hg ⊢
      try omega
  rcases mem_if_step h with h | ⟨hg, rfl, hl⟩
  rotate_left
  · refine ⟨?_, ?_, ?_, hl⟩ <;>
    · simp only [isKnightOffset, pos, BOARD_WIDTH, BOARD_HEIGHT, and_true, true_and,
        eq_self_iff_true, or_true, true_or] at hg ⊢
      try omega
  simp at h

/-- Claim C1: every cell produced by the move generator from a path state
with an in-grid head is itself in the grid, lies at a knight offset from the
head, is unmarked, belongs to a region other than the current one, and its
region holds fewer than five marks in the state. -/
theorem all_moves_legal (s : GameState) (c : Position)
    (hx : s.current_position.x < BOARD_WIDTH) (hy : s.current_position.y < BOARD_HEIGHT)
    (h : c ∈ s.all_moves) :
    c.x < BOARD_WIDTH ∧ c.y < BOARD_HEIGHT ∧
    isKnightOffset s.current_position c ∧
    s.board.getD c.raw_index false = false ∧
    s.ref_regions.getD c.raw_index 0 ≠ s.current_region ∧
    countMarkedIn s.board (s.region_list.getD (s.ref_regions.getD c.raw_index 0) []) < 5 := by
  obtain ⟨h1, h2, h3, h4⟩ := mem_all_moves_spec hx hy h
  unfold legalTarget at h4
  exact ⟨h1, h2, h3, h4.2.1, h4.1, h4.2.2⟩

/-- Witness for `all_moves_legal` at the initial state and the generated cell (1, 2). -/
theorem all_moves_legal_witness :
    (initial_state.current_position.x < BOARD_WIDTH ∧
     initial_state.current_position.y < BOARD_HEIGHT ∧
     pos 1 2 ∈ initial_state.all_moves) ∧
    ((pos 1 2).x < BOARD_WIDTH ∧ (pos 1 2).y < BOARD_HEIGHT ∧
     isKnightOffset initial_state.current_position (pos 1 2) ∧
     initial_state.board.getD (pos 1 2).raw_index false = false ∧
     initial_state.ref_regions.getD (pos 1 2).raw_index 0 ≠ initial_state.current_region ∧
     countMarkedIn initial_state.board
       (initial_state.region_list.getD
         (initial_state.ref_regions.getD (pos 1 2).raw_index 0) []) < 5) :=
  ⟨⟨by decide, by decide, by decide⟩,
   all_moves_legal initial_state (pos 1 2) (by decide) (by decide) (by decide)⟩

/-! ## Helper lemmas about list updates and state derivation -/

lemma getD_set_self (l : List Bool) (i : Nat) (h : i < l.length) :
    (l.set i true).getD i false = true := by
  induction l generalizing i with
  | nil => simp at h
  | cons a t ih =>
    cases i with
    | zero => rfl
    | succ n =>
      simp only [List.length_cons] at h
      exact ih n (by omega)

lemma getD_set_ne (l : List Bool) (i j : Nat) (a : Bool) (h : i ≠ j) :
    (l.set i a).getD j false = l.getD j false := by
  induction l generalizing i j with
  | nil => rfl
  | cons b t ih =>
    cases i with
    | zero =>
      cases j with
      | zero => exact absurd rfl h
      | succ m => rfl
    | succ n =>
      cases j with
      | zero => rfl
      | succ m => exact ih n m (by omega)

lemma set_eq_self_of_getD (l : List Bool) (i : Nat) (h : l.getD i false = true) :
    l.set i true = l := by
  induction l generalizing i with
  | nil => rfl
  | cons a t ih =>
    cases i with
    | zero =>
      simp only [List.getD_cons_zero] at h
      simp [h]
    | succ n =>
      simp only [List.getD_cons_succ] at h
      simp [ih n h]

lemma into_move_board (s : GameState) (c : Position) :
    (s.into_move c).board = s.board.set c.raw_index true := rfl

lemma into_move_history (s : GameState) (c : Position) :
    (s.into_move c).history = s.history ++ [c] := rfl

lemma into_move_position (s : GameState) (c : Position) :
    (s.into_move c).current_position = c := rfl

lemma into_move_region (s : GameState) (c : Position) :
    (s.into_move c).current_region = s.ref_regions.getD c.raw_index 0 := rfl

/-- Claim C5: deriving a child from a state marks exactly the target index in
the child board, appends the cell to the child history, and, the embedding
being pure, leaves the argument state available unchanged for further
derivations. -/
theorem into_move_frame (s : GameState) (c : Position)
    (h : c.raw_index < s.board.length) :
    (s.into_move c).board.getD c.raw_index false = true ∧
    (∀ i, i ≠ c.raw_index → (s.into_move c).board.getD i false = s.board.getD i false) ∧
    (s.into_move c).history = s.history ++ [c] ∧
    (s.into_move c).current_position = c := by
  refine ⟨?_, ?_, rfl, rfl⟩
  · rw [into_move_board]
    exact getD_set_self _ _ h
  · intro i hi
    rw [into_move_board]
    exact getD_set_ne _ _ _ _ (Ne.symm hi)

/-- Witness for `into_move_frame` at the initial state and cell (2, 1). -/
theorem into_move_frame_witness :
    (pos 2 1).raw_index < initial_state.board.length ∧
    ((initial_state.into_move (pos 2 1)).board.getD (pos 2 1).raw_index false = true ∧
     (∀ i, i ≠ (pos 2 1).raw_index →
        (initial_state.into_move (pos 2 1)).board.getD i false
          = initial_state.board.getD i false) ∧
     (initial_state.into_move (pos 2 1)).history = initial_state.history ++ [pos 2 1] ∧
     (initial_state.into_move (pos 2 1)).current_position = pos 2 1) :=
  ⟨by decide, into_move_frame initial_state (pos 2 1) (by decide)⟩

/-- Claim C10: into_move is total on any in-bounds cell without signaling an
error, even one already marked; in that case the child board equals the
parent board and the cell is appended to the history again, duplicating its
history entry. -/
theorem into_move_total_on_marked (s : GameState) (c : Position)
    (hlen : c.raw_index < s.board.length)
    (hmarked : s.board.getD c.raw_index false = true) :
    (s.into_move c).board = s.board ∧
    (s.into_move c).history = s.history ++ [c] ∧
    (s.into_move c).history.count c = s.history.count c + 1 := by
  refine ⟨?_, rfl, ?_⟩
  · rw [into_move_board]
    exact set_eq_self_of_getD _ _ hmarked
  · rw [into_move_history, List.count_append]
    simp

/-- Witness for `into_move_total_on_marked` at the initial state and its
already-marked origin cell. -/
theorem into_move_total_on_marked_witness :
    ((pos 0 0).raw_index < initial_state.board.length ∧
     initial_state.board.getD (pos 0 0).raw_index false = true) ∧
    ((initial_state.into_move (pos 0 0)).board = initial_state.board ∧
     (initial_state.into_move (pos 0 0)).history = initial_state.history ++ [pos 0 0] ∧
     (initial_state.into_move (pos 0 0)).history.count (pos 0 0)
       = initial_state.history.count (pos 0 0) + 1) :=
  ⟨⟨by decide, by decide⟩,
   into_move_total_on_marked initial_state (pos 0 0) (by decide) (by decide)⟩

/-! ## Helper lemmas for the balance check -/

lemma range'_all_eq_iff (f : Nat → Nat) (n : Nat) (hn : 0 < n) :
    ((List.range' 1 (n - 1)).all (fun i => f i == f 0) = true)
      ↔ ∀ i, i < n → ∀ j, j < n → f i = f j := by
  rw [List.all_eq_true]
  constructor
  · intro hall i hi j hj
    have key : ∀ k, k < n → f k = f 0 := by
      intro k hk
      rcases Nat.eq_zero_or_pos k with rfl | hpos
      · rfl
      · have hmem : k ∈ List.range' 1 (n - 1) := by
          rw [List.mem_range']
          exact ⟨k - 1, by omega, by omega⟩
        simpa only [beq_iff_eq] using hall k hmem
    rw [key i hi, key j hj]
  · intro hp a ha
    rw [List.mem_range'] at ha
    obtain ⟨i, hi, rfl⟩ := ha
    simp only [beq_iff_eq]
    exact hp _ (by omega) 0 hn

lemma regions_all_eq_iff (b : List Bool) (rl : List (List Position)) :
    (rl.all (fun region => countMarkedIn b (rl.getD 0 []) == countMarkedIn b region) = true)
      ↔ ∀ r1 ∈ rl, ∀ r2 ∈ rl, countMarkedIn b r1 = countMarkedIn b r2 := by
  rw [List.all_eq_true]
  cases rl with
  | nil => simp
  | cons hd tl =>
    simp only [List.getD_cons_zero, beq_iff_eq]
    constructor
    · intro hall r1 h1 r2 h2
      rw [← hall r1 h1, ← hall r2 h2]
    · intro hp region hreg
      exact hp hd (List.mem_cons_self hd tl) region hreg

/-- Claim C2: check returns true exactly when the ten row counts are mutually
equal, the ten column counts are mutually equal, and the counts of the regions
of the region list are mutually equal; each group is compared within itself
only, so the three per-group counts need not agree with one another. -/
theorem check_iff_balanced (s : GameState) :
    s.check = true ↔
      ((∀ i, i < BOARD_HEIGHT → ∀ j, j < BOARD_HEIGHT → s.count_in_row i = s.count_in_row j) ∧
       (∀ i, i < BOARD_WIDTH → ∀ j, j < BOARD_WIDTH → s.count_in_col i = s.count_in_col j) ∧
       (∀ r1 ∈ s.region_list, ∀ r2 ∈ s.region_list,
          countMarkedIn s.board r1 = countMarkedIn s.board r2)) := by
  simp only [GameState.check, Bool.and_eq_true]
  rw [range'_all_eq_iff s.count_in_row BOARD_HEIGHT (by decide),
      range'_all_eq_iff s.count_in_col BOARD_WIDTH (by decide),
      regions_all_eq_iff s.board s.region_list]
  tauto

/-! ## Helper lemmas for frontier expansion -/

lemma mem_expand_frontier {st : GameState} {states : List GameState}
    (h : st ∈ expand_frontier states) :
    ∃ f ∈ states, ∃ m ∈ f.all_moves, st = f.into_move m := by
  simp only [expand_frontier, List.mem_flatMap, List.mem_map] at h
  obtain ⟨f, hf, m, hm, rfl⟩ := h
  exact ⟨f, hf, m, hm, rfl⟩

lemma paths_to_eq_filter (frontier : List GameState) (t : Position) (n : Nat) :
    paths_to frontier t n
      = (expand_frontier^[n] frontier).filter (fun p => decide (p.current_position = t)) := by
  induction n generalizing frontier with
  | zero => rfl
  | succ m ih =>
    show paths_to (expand_frontier frontier) t m = _
    rw [ih, Function.iterate_succ_apply]

lemma paths_to_mem_length {frontier : List GameState} {t : Position} {n L : Nat}
    (hL : ∀ st ∈ frontier, st.history.length = L) :
    ∀ st ∈ paths_to frontier t n, st.history.length = L + n ∧ st.current_position = t := by
  induction n generalizing frontier L with
  | zero =>
    intro st hst
    rw [show paths_to frontier t 0
          = frontier.filter (fun p => decide (p.current_position = t)) from rfl,
        List.mem_filter] at hst
    refine ⟨hL st hst.1, of_decide_eq_true hst.2⟩
  | succ m ih =>
    intro st hst
    have hexp : ∀ st2 ∈ expand_frontier frontier, st2.history.length = L + 1 := by
      intro st2 hst2
      obtain ⟨f, hf, mv, hmv, rfl⟩ := mem_expand_frontier hst2
      rw [into_move_history, List.length_append, hL f hf]
      rfl
    have h := ih hexp st hst
    exact ⟨by omega, h.2⟩

/-- Claim C3: from a frontier whose states all have history length L, every
state returned by paths_to with budget n has history length L + n and head
equal to the destination; and when no state of the n-times expanded frontier
sits on the destination, paths_to returns the empty list, an ordinary value
rather than an error. -/
theorem paths_to_spec (frontier : List GameState) (t : Position) (n L : Nat)
    (hL : ∀ st ∈ frontier, st.history.length = L) :
    (∀ st ∈ paths_to frontier t n, st.history.length = L + n ∧ st.current_position = t) ∧
    ((∀ st ∈ expand_frontier^[n] frontier, st.current_position ≠ t) →
       paths_to frontier t n = []) := by
  refine ⟨paths_to_mem_length hL, ?_⟩
  intro hnone
  rw [paths_to_eq_filter, List.filter_eq_nil_iff]
  intro st hst
  simp only [decide_eq_true_eq]
  exact hnone st hst

/-- Witness for `paths_to_spec` on the singleton frontier of the initial state
with a zero move budget. -/
theorem paths_to_spec_witness :
    (∀ st ∈ [initial_state], st.history.length = 1) ∧
    ((∀ st ∈ paths_to [initial_state] (pos 1 2) 0,
        st.history.length = 1 + 0 ∧ st.current_position = pos 1 2) ∧
     ((∀ st ∈ expand_frontier^[0] [initial_state], st.current_position ≠ pos 1 2) →
        paths_to [initial_state] (pos 1 2) 0 = [])) :=
  ⟨by decide, paths_to_spec [initial_state] (pos 1 2) 0 1 (by decide)⟩

/-! ## Helper lemmas for the state invariant -/

lemma raw_index_lt {c : Position} (hx : c.x < BOARD_WIDTH) (hy : c.y < BOARD_HEIGHT) :
    c.raw_index < BOARD_WIDTH * BOARD_HEIGHT := by
  simp only [Position.raw_index, BOARD_WIDTH, BOARD_HEIGHT] at *
  omega

lemma raw_index_inj {a b : Position}
    (hax : a.x < BOARD_WIDTH) (hay : a.y < BOARD_HEIGHT)
    (hbx : b.x < BOARD_WIDTH) (hby : b.y < BOARD_HEIGHT)
    (h : a.raw_index = b.raw_index) : a = b := by
  obtain ⟨ax, ay⟩ := a
  obtain ⟨bx, bz⟩ := b
  simp only [Position.raw_index, BOARD_WIDTH, BOARD_HEIGHT] at *
  simp only [Position.mk.injEq]
  omega

lemma new_board_eq (rr : List Nat) (rl : List (List Position)) :
    (GameState.new rr rl).board
      = (List.replicate (BOARD_WIDTH * BOARD_HEIGHT) false).set 0 true := rfl

lemma new_history_eq (rr : List Nat) (rl : List (List Position)) :
    (GameState.new rr rl).history = [pos 0 0] := rfl

/-- The structural invariant of path states: a 100-entry board, an in-grid
head, board marks that agree with history membership on in-grid cells, a head
that closes the history, and a cached region matching the reverse map at the
head. -/
def stateInv (s : GameState) : Prop :=
  s.board.length = BOARD_WIDTH * BOARD_HEIGHT ∧
  s.current_position.x < BOARD_WIDTH ∧
  s.current_position.y < BOARD_HEIGHT ∧
  (∀ c : Position, c.x < BOARD_WIDTH → c.y < BOARD_HEIGHT →
      (s.board.getD c.raw_index false = true ↔ c ∈ s.history)) ∧
  s.history.getLast? = some s.current_position ∧
  s.current_region = s.ref_regions.getD s.current_position.raw_index 0

lemma stateInv_new (rr : List Nat) (rl : List (List Position)) :
    stateInv (GameState.new rr rl) := by
  refine ⟨?_, ?hx0, ?hy0, ?_, rfl, rfl⟩
  case hx0 =>
    show (0 : Nat) < BOARD_WIDTH
    decide
  case hy0 =>
    show (0 : Nat) < BOARD_HEIGHT
    decide
  · rw [new_board_eq]
    decide
  · intro c hx hy
    rw [new_board_eq, new_history_eq]
    have hi := raw_index_lt hx hy
    have hboard : ∀ i, i < BOARD_WIDTH * BOARD_HEIGHT →
        (((List.replicate (BOARD_WIDTH * BOARD_HEIGHT) false).set 0 true).getD i false
          = decide (i = 0)) := by decide
    rw [hboard c.raw_index hi]
    simp only [List.mem_singleton, decide_eq_true_eq]
    constructor
    · intro h0
      apply raw_index_inj hx hy (by decide) (by decide)
      rw [h0]
      rfl
    · intro hc
      rw [hc]
      rfl

lemma stateInv_step {s : GameState} {c : Position} (hs : stateInv s) (hc : c ∈ s.all_moves) :
    stateInv (s.into_move c) := by
  unfold stateInv at hs
  obtain ⟨hlen, hx, hy, hiff, hlast, hreg⟩ := hs
  obtain ⟨hcx, hcy, -, -⟩ := mem_all_moves_spec hx hy hc
  have hcraw : c.raw_index < s.board.length := by
    rw [hlen]
    exact raw_index_lt hcx hcy
  refine ⟨?_, hcx, hcy, ?_, ?_, rfl⟩
  · rw [into_move_board, List.length_set]
    exact hlen
  · intro d hdx hdy
    rw [into_move_board, into_move_history]
    by_cases hdc : d = c
    · subst hdc
      simp only [List.mem_append, List.mem_singleton]
      constructor
      · intro _
        exact Or.inr trivial
      · intro _
        exact getD_set_self _ _ hcraw
    · have hraw : c.raw_index ≠ d.raw_index :=
        fun he => hdc (raw_index_inj hdx hdy hcx hcy he.symm)
      rw [getD_set_ne _ _ _ _ hraw, hiff d hdx hdy]
      simp [List.mem_append, hdc]
  · rw [into_move_history, into_move_position]
    exact List.getLast?_concat _

lemma reachable_stateInv {rr : List Nat} {rl : List (List Position)} {s : GameState}
    (h : Reachable rr rl s) : stateInv s := by
  induction h with
  | init => exact stateInv_new rr rl
  | step s c hr hm ih => exact stateInv_step ih hm

/-- Claim C4: every state reachable from GameState.new by deriving children on
generator moves marks a cell exactly when it occurs in the history, keeps the
head equal to the last history entry, and caches the region found in the
reverse map at the head; the initial state has history [(0, 0)] and exactly
one marked cell. -/
theorem reachable_invariant (rr : List Nat) (rl : List (List Position)) (s : GameState)
    (h : Reachable rr rl s) :
    (∀ c : Position, c.x < BOARD_WIDTH → c.y < BOARD_HEIGHT →
        (s.board.getD c.raw_index false = true ↔ c ∈ s.history)) ∧
    s.history.getLast? = some s.current_position ∧
    s.current_region = s.ref_regions.getD s.current_position.raw_index 0 ∧
    (GameState.new rr rl).history = [pos 0 0] ∧
    (GameState.new rr rl).board.count true = 1 := by
  have hs := reachable_stateInv h
  unfold stateInv at hs
  obtain ⟨-, -, -, hiff, hlast, hreg⟩ := hs
  refine ⟨hiff, hlast, hreg, rfl, ?_⟩
  rw [new_board_eq]
  decide

/-- Witness for `reachable_invariant` at the initial state of the puzzle. -/
theorem reachable_invariant_witness :
    Reachable (get_region_map init_regions) init_regions initial_state ∧
    ((∀ c : Position, c.x < BOARD_WIDTH → c.y < BOARD_HEIGHT →
        (initial_state.board.getD c.raw_index false = true ↔ c ∈ initial_state.history)) ∧
     initial_state.history.getLast? = some initial_state.current_position ∧
     initial_state.current_region
       = initial_state.ref_regions.getD initial_state.current_position.raw_index 0 ∧
     (GameState.new (get_region_map init_regions) init_regions).history = [pos 0 0] ∧
     (GameState.new (get_region_map init_regions) init_regions).board.count true = 1) :=
  ⟨Reachable.init, reachable_invariant _ _ initial_state Reachable.init⟩

/-- Claim C6: init_regions has exactly twelve regions, every listed cell lies
in the grid, distinct regions share no cell, every grid cell is covered, and
the reverse map built by get_region_map sends every grid cell to a region
containing it. -/
theorem regions_partition_and_map_agree :
    init_regions.length = 12 ∧
    (∀ x, x < BOARD_WIDTH → ∀ y, y < BOARD_HEIGHT →
        ∃ i, i < init_regions.length ∧ pos x y ∈ init_regions.getD i []) ∧
    (∀ i, i < init_regions.length → ∀ j, j < init_regions.length →
        ∀ c ∈ init_regions.getD i [], i = j ∨ c ∉ init_regions.getD j []) ∧
    (∀ i, i < init_regions.length → ∀ c ∈ init_regions.getD i [],
        c.x < BOARD_WIDTH ∧ c.y < BOARD_HEIGHT) ∧
    (∀ x, x < BOARD_WIDTH → ∀ y, y < BOARD_HEIGHT →
        pos x y ∈ init_regions.getD
          ((get_region_map init_regions).getD (pos x y).raw_index 0) []) := by
  decide

/-! ## Validation behavior of the static input constructors -/

/-- A two-entry region table that does not partition the grid: both regions
hold the same single cell and every other cell is uncovered. -/
def overlapping_regions : List (List Position) :=
  [[pos 0 0], [pos 0 0]]

/-- Claim C7 counterexample: on a region table that fails to partition the
grid, the load-time construction does not reject anything: get_region_map
returns an ordinary 100-entry reverse map, the shared cell simply keeping the
index written last. -/
theorem no_rejection_on_bad_regions :
    (pos 0 0 ∈ overlapping_regions.getD 0 [] ∧
     pos 0 0 ∈ overlapping_regions.getD 1 [] ∧
     (∀ i, i < overlapping_regions.length → pos 1 0 ∉ overlapping_regions.getD i [])) ∧
    (get_region_map overlapping_regions).length = BOARD_WIDTH * BOARD_HEIGHT ∧
    (get_region_map overlapping_regions).getD (pos 0 0).raw_index 0 = 1 := by
  decide

lemma foldl_set_length (ps : List Position) (k : Nat) (l : List Nat) :
    (ps.foldl (fun b p => b.set p.raw_index k) l).length = l.length := by
  induction ps generalizing l with
  | nil => rfl
  | cons p t ih => rw [List.foldl_cons, ih, List.length_set]

lemma foldl_regions_length (l : List (Nat × List Position)) (acc : List Nat) :
    (l.foldl (fun blank iv => iv.2.foldl (fun b p => b.set p.raw_index iv.1) blank) acc).length
      = acc.length := by
  induction l generalizing acc with
  | nil => rfl
  | cons hd t ih => rw [List.foldl_cons, ih, foldl_set_length]

lemma get_region_map_length (regions : List (List Position)) :
    (get_region_map regions).length = BOARD_WIDTH * BOARD_HEIGHT := by
  unfold get_region_map
  rw [foldl_regions_length, List.length_replicate]

/-- Claim C7 amended: the load-time construction validates nothing.
get_region_map is total and yields a 100-entry map for every region table,
including non-partitioning ones, and init_waypoints is a fixed constant list;
its move numbers happen to be strictly increasing and its cells happen to lie
in the grid, but no code checks either condition and nothing is rejected. -/
theorem construction_performs_no_validation :
    (∀ regions : List (List Position),
        (get_region_map regions).length = BOARD_WIDTH * BOARD_HEIGHT) ∧
    (get_region_map overlapping_regions).getD (pos 0 0).raw_index 0 = 1 ∧
    init_waypoints.length = 17 ∧
    (∀ k, k < init_waypoints.length - 1 →
        (init_waypoints.getD k (0, pos 0 0)).1 < (init_waypoints.getD (k + 1) (0, pos 0 0)).1) ∧
    (∀ w ∈ init_waypoints, w.2.x < BOARD_WIDTH ∧ w.2.y < BOARD_HEIGHT) := by
  exact ⟨get_region_map_length, by decide, by decide, by decide, by decide⟩

/-- Claim C8: three generator steps from the single initial state reach the
second waypoint (1, 2): paths_to returns a non-empty list and every returned
state has a four-entry history whose head is (1, 2). -/
theorem paths_to_waypoint_scenario :
    paths_to [initial_state] (pos 1 2) 3 ≠ [] ∧
    ∀ st ∈ paths_to [initial_state] (pos 1 2) 3,
      st.history.length = 4 ∧ st.current_position = pos 1 2 := by
  decide

/-! ## Permutation invariance of the balance check -/

lemma check_regions_perm (b : List Bool) {rl1 rl2 : List (List Position)} (hp : rl1.Perm rl2) :
    (rl1.all (fun region => countMarkedIn b (rl1.getD 0 []) == countMarkedIn b region))
      = (rl2.all (fun region => countMarkedIn b (rl2.getD 0 []) == countMarkedIn b region)) := by
  rw [Bool.eq_iff_iff, regions_all_eq_iff, regions_all_eq_iff]
  constructor
  · intro h r1 h1 r2 h2
    exact h r1 (hp.mem_iff.mpr h1) r2 (hp.mem_iff.mpr h2)
  · intro h r1 h1 r2 h2
    exact h r1 (hp.mem_iff.mp h1) r2 (hp.mem_iff.mp h2)

/-- Claim C9: the balance check is invariant under relabeling the regions:
replacing the region list of a state by any permutation of it, with the
reverse map rebuilt by get_region_map for the permuted list, leaves the value
of check unchanged. -/
theorem check_perm_invariant (s : GameState) (rl2 : List (List Position))
    (hp : s.region_list.Perm rl2) :
    s.check
      = (GameState.mk s.board s.current_position s.current_region s.history
          (get_region_map rl2) rl2).check := by
  simp only [GameState.check, GameState.count_in_row, GameState.count_in_col]
  rw [check_regions_perm s.board hp]

/-- The puzzle region table with its first two regions swapped. -/
def swapped_regions : List (List Position) :=
  [init_regions.getD 1 [], init_regions.getD 0 []] ++ init_regions.drop 2

/-- Witness for `check_perm_invariant` at the initial state and the swapped
region table. -/
theorem check_perm_invariant_witness :
    initial_state.region_list.Perm swapped_regions ∧
    initial_state.check
      = (GameState.mk initial_state.board initial_state.current_position
          initial_state.current_region initial_state.history
          (get_region_map swapped_regions) swapped_regions).check :=
  ⟨by decide, check_perm_invariant initial_state swapped_regions (by decide)⟩
